import Mathlib

/-!
Verification of the trie-based book recommender.

Strings are embedded as lists of characters (`Str`), the pandas dataframe as a
list of `Record`s (row order = dataframe order, identifiers are list positions),
ratings as rationals.  The trie's per-node child dictionary is embedded as an
association list that preserves insertion order, matching Python dict
semantics (lookup by key; a new key is appended at the end; an existing key
keeps its position).
-/

abbrev Str := List Char

/-- Python `s.lower()` on the embedded strings (ASCII case folding, as the claims use it). -/
def lowerStr (s : Str) : Str := s.map Char.toLower

/-- Helper for `splitWs`: accumulates the current word (reversed) and flushes it
at whitespace and at the end, skipping empty words — Python `str.split()`. -/
def splitWsAux : Str → Str → List Str
  | [], acc => if acc = [] then [] else [acc.reverse]
  | c :: cs, acc =>
    if c.isWhitespace then
      if acc = [] then splitWsAux cs [] else acc.reverse :: splitWsAux cs []
    else splitWsAux cs (c :: acc)

/-- Python `str.split()` with no separator: split on runs of whitespace,
no empty words. -/
def splitWs (s : Str) : List Str := splitWsAux s []

/-- Python `str.strip()`: remove leading and trailing whitespace. -/
def stripStr (s : Str) : Str :=
  ((s.dropWhile Char.isWhitespace).reverse.dropWhile Char.isWhitespace).reverse

/-- Tests whether `p` is a prefix of `w` (decidable, matches Python `w.startswith(p)`). -/
def isPre : Str → Str → Bool
  | [], _ => true
  | _ :: _, [] => false
  | c :: p, d :: w => c == d && isPre p w

/-- One dataframe row, with the four fields the core reads. -/
structure Record where
  title : Str
  authors : Str
  genre : Str
  average_rating : ℚ
deriving DecidableEq

/-- The searchable text `f"{book['title']} {book['authors']} {book['genre']}"`. -/
def searchableText (book : Record) : Str :=
  book.title ++ [' '] ++ book.authors ++ [' '] ++ book.genre

/-- The tokens the indexer inserts for one record:
`searchable_text.lower().split()`. -/
def tokens (book : Record) : List Str := splitWs (lowerStr (searchableText book))

/-- Embeds `TrieNode`: children dict (as an insertion-ordered association list),
`is_end`, `book_indices`. -/
inductive TrieNode : Type where
  | mk (children : List (Char × TrieNode)) (is_end : Bool) (book_indices : List Nat)

/-- Embeds `TrieNode.__init__`. -/
def emptyNode : TrieNode := .mk [] false []

/-- Embeds `node.children[char]`, `None` when absent. -/
def lookupChild : List (Char × TrieNode) → Char → Option TrieNode
  | [], _ => none
  | (c', n) :: rest, c => if c' = c then some n else lookupChild rest c

/-- Embeds `node.children[char] = n`: overwrite in place, or append a new key
(Python dict update semantics). -/
def setChild : List (Char × TrieNode) → Char → TrieNode → List (Char × TrieNode)
  | [], c, n => [(c, n)]
  | (c', m) :: rest, c, n =>
    if c' = c then (c, n) :: rest else (c', m) :: setChild rest c n

/-- Embeds `Trie.insert(word, index)`: walk/extend the path for `word`, creating nodes
as needed; mark the final node terminal and append `index` to its
`book_indices`. -/
def TrieNode.insert : TrieNode → Str → Nat → TrieNode
  | .mk ch _ bi, [], i => .mk ch true (bi ++ [i])
  | .mk ch e bi, c :: cs, i =>
    .mk (setChild ch c (((lookupChild ch c).getD emptyNode).insert cs i)) e bi

mutual
/-- Embeds `Trie._collect_indices(node)`: this node's indices when terminal, then the
children's, depth-first in dict order. -/
def TrieNode.collectIndices : TrieNode → List Nat
  | .mk ch e bi => (if e then bi else []) ++ collectChildren ch
def collectChildren : List (Char × TrieNode) → List Nat
  | [] => []
  | (_, n) :: rest => n.collectIndices ++ collectChildren rest
end

/-- The character-by-character walk inside `Trie.search`: the node reached by
the path for the given string, `None` when some character is missing. -/
def TrieNode.walk : TrieNode → Str → Option TrieNode
  | n, [] => some n
  | .mk ch _ _, c :: cs =>
    match lookupChild ch c with
    | none => none
    | some m => m.walk cs

/-- Embeds `Trie.search(prefix)`: walk the path; an absent character yields `[]`,
otherwise collect the reached subtree. -/
def TrieNode.search : TrieNode → Str → List Nat
  | n, [] => n.collectIndices
  | .mk ch _ _, c :: cs =>
    match lookupChild ch c with
    | none => []
    | some m => m.search cs

/-- The inner loop of `TrieBasedRecommender.__init__` for one record. -/
def insertRecord (t : TrieNode) (idx : Nat) (book : Record) : TrieNode :=
  (tokens book).foldl (fun t word => t.insert word idx) t

/-- Embeds `TrieBasedRecommender.__init__`: insert every token of every record with
the record's dataframe position. -/
def buildTrie (books : List Record) : TrieNode :=
  books.enum.foldl (fun t p => insertRecord t p.1 p.2) emptyNode

/-- Folding a whole list of (token, index) insertions, for stating
insertion-order properties. -/
def insertList (t : TrieNode) (prs : List (Str × Nat)) : TrieNode :=
  prs.foldl (fun t pr => t.insert pr.1 pr.2) t

/-- All (token, identifier) pairs the indexer inserts, in insertion order. -/
def pairsOf (books : List Record) : List (Str × Nat) :=
  books.enum.flatMap (fun p => (tokens p.2).map (fun w => (w, p.1)))

/-- The literal string `"All"`, the pass-through sentinel of the filters. -/
def allStr : Str := ['A', 'l', 'l']

/-- The condition of the list comprehension in `recommend_books`. -/
def passesFilters (author genre : Str) (min_rating : ℚ) (r : Record) : Bool :=
  (author == allStr || r.authors == author) &&
  (genre == allStr || r.genre == genre) &&
  decide (min_rating ≤ r.average_rating)

/-- One candidate of the comprehension: resolve `books_df.iloc[idx]`, keep the
row iff it passes the filters. -/
def resolveKeep (books : List Record) (author genre : Str) (min_rating : ℚ)
    (idx : Nat) : Option Record :=
  match books[idx]? with
  | none => none
  | some r => if passesFilters author genre min_rating r then some r else none

/-- The whole comprehension (`# Collect and filter books`). -/
def filterStep (books : List Record) (idxs : List Nat) (author genre : Str)
    (min_rating : ℚ) : List Record :=
  idxs.filterMap (resolveKeep books author genre min_rating)

/-- Rating comparison used by `recommended.sort(key=..., reverse=True)`. -/
def ratingGe (a b : Record) : Prop := b.average_rating ≤ a.average_rating

instance : DecidableRel ratingGe := fun a b =>
  inferInstanceAs (Decidable (b.average_rating ≤ a.average_rating))

instance : IsTotal Record ratingGe := ⟨fun a b => le_total b.average_rating a.average_rating⟩

instance : IsTrans Record ratingGe := ⟨fun _ _ _ h h' => le_trans h' h⟩

/-- Embeds `recommended.sort(key=lambda x: x['average_rating'], reverse=True)`:
a stable sort, rating descending.  Python's sort is stable, and stable sorts
under a fixed total preorder are extensionally unique, so insertion sort with
ties kept in input order is the same function. -/
def sortByRating (l : List Record) : List Record := l.insertionSort ratingGe

/-- The local `recommended_indices` of `recommend_books`: all identifiers in
dataset order for an empty/whitespace query (`if not search_query.strip()`),
otherwise `self.trie.search(search_query.lower())`. -/
def recommendedIndices (books : List Record) (trie : TrieNode)
    (search_query : Str) : List Nat :=
  if stripStr search_query = [] then List.range books.length
  else trie.search (lowerStr search_query)

/-- Embeds `TrieBasedRecommender.recommend_books`. -/
def recommend_books (books : List Record) (trie : TrieNode) (search_query : Str)
    (author genre : Str) (min_rating : ℚ) : List Record :=
  sortByRating
    (filterStep books (recommendedIndices books trie search_query) author genre
      min_rating)

/-- Embeds the set `required_columns` of the four mandatory column names. -/
def required_columns : List Str :=
  [ ['t','i','t','l','e'],
    ['a','u','t','h','o','r','s'],
    ['g','e','n','r','e'],
    ['a','v','e','r','a','g','e','_','r','a','t','i','n','g'] ]

/-- The top of the script after loading: check the schema; on failure emit the
single `st.error` (whose message lists `required_columns`) and stop before
`TrieBasedRecommender(books_df)` runs; otherwise build the index. -/
def runApp (columns : List Str) (books : List Record) : Except (List Str) TrieNode :=
  if required_columns.all (fun c => columns.contains c) then .ok (buildTrie books)
  else .error required_columns

/-- Sum of all token counts, the size measure of the index. -/
def totalTokens (books : List Record) : Nat :=
  (books.map (fun r => (tokens r).length)).sum

/-- Well-formedness the indexer maintains: `book_indices` is only populated at
terminal nodes (insert sets `is_end` and appends together). -/
inductive TrieNode.WF : TrieNode → Prop
  | mk {ch e bi} : (e = false → bi = []) → (∀ p ∈ ch, TrieNode.WF p.2) →
      TrieNode.WF (.mk ch e bi)

/-! ### Basic trie lemmas -/

theorem emptyNode_search (p : Str) : emptyNode.search p = [] := by
  cases p <;> rfl

theorem lookupChild_setChild_self (ch : List (Char × TrieNode)) (c : Char)
    (n : TrieNode) : lookupChild (setChild ch c n) c = some n := by
  induction ch with
  | nil => simp [setChild, lookupChild]
  | cons a rest ih =>
    obtain ⟨c₀, m⟩ := a
    by_cases h : c₀ = c
    · simp [setChild, h, lookupChild]
    · simp [setChild, h, lookupChild, ih]

theorem lookupChild_setChild_ne (ch : List (Char × TrieNode)) {c c' : Char}
    (n : TrieNode) (h : c' ≠ c) :
    lookupChild (setChild ch c n) c' = lookupChild ch c' := by
  have h' : ¬ (c = c') := fun he => h (Eq.symm he)
  induction ch with
  | nil => simp [setChild, lookupChild, h']
  | cons a rest ih =>
    obtain ⟨c₀, m⟩ := a
    by_cases h₀ : c₀ = c
    · subst h₀
      simp [setChild, lookupChild, h']
    · simp [setChild, h₀, lookupChild, ih]

theorem mem_setChild : ∀ {ch : List (Char × TrieNode)} {c : Char} {n : TrieNode},
    ∀ q ∈ setChild ch c n, q = (c, n) ∨ q ∈ ch := by
  intro ch
  induction ch with
  | nil =>
    intro c n q hq
    simp only [setChild] at hq
    exact Or.inl (List.mem_singleton.mp hq)
  | cons a rest ih =>
    intro c n q hq
    obtain ⟨c₀, m⟩ := a
    by_cases h₀ : c₀ = c
    · simp only [setChild, if_pos h₀, List.mem_cons] at hq
      rcases hq with h | h
      · exact Or.inl h
      · exact Or.inr (List.mem_cons_of_mem _ h)
    · simp only [setChild, if_neg h₀, List.mem_cons] at hq
      rcases hq with h | h
      · exact Or.inr (by rw [h]; exact List.mem_cons_self _ _)
      · rcases ih q h with h' | h'
        · exact Or.inl h'
        · exact Or.inr (List.mem_cons_of_mem _ h')

theorem lookupChild_mem : ∀ {ch : List (Char × TrieNode)} {c : Char} {m : TrieNode},
    lookupChild ch c = some m → (c, m) ∈ ch := by
  intro ch
  induction ch with
  | nil =>
    intro c m h
    simp [lookupChild] at h
  | cons a rest ih =>
    intro c m h
    obtain ⟨c₀, m₀⟩ := a
    by_cases h₀ : c₀ = c
    · subst h₀
      simp [lookupChild] at h
      rw [← h]
      exact List.mem_cons_self _ _
    · simp only [lookupChild, if_neg h₀] at h
      exact List.mem_cons_of_mem _ (ih h)

theorem wf_parts {ch : List (Char × TrieNode)} {e : Bool} {bi : List Nat}
    (h : TrieNode.WF (.mk ch e bi)) :
    (e = false → bi = []) ∧ ∀ p ∈ ch, p.2.WF := by
  cases h with
  | mk h1 h2 => exact ⟨h1, h2⟩

theorem emptyNode_WF : emptyNode.WF := TrieNode.WF.mk (fun _ => rfl) (by simp)

theorem insert_WF : ∀ (w : Str) (n : TrieNode) (i : Nat), n.WF → (n.insert w i).WF := by
  intro w
  induction w with
  | nil =>
    intro n i hwf
    obtain ⟨ch, e, bi⟩ := n
    exact TrieNode.WF.mk (fun h => nomatch h) (wf_parts hwf).2
  | cons c cs ih =>
    intro n i hwf
    obtain ⟨ch, e, bi⟩ := n
    refine TrieNode.WF.mk (wf_parts hwf).1 ?_
    intro q hq
    rcases mem_setChild q hq with h | h
    · subst h
      refine ih _ i ?_
      cases hl : lookupChild ch c with
      | none => simpa [hl] using emptyNode_WF
      | some m =>
        simpa [hl] using (wf_parts hwf).2 _ (lookupChild_mem hl)
    · exact (wf_parts hwf).2 _ h

/-! ### The effect of one insertion on collection and search -/

theorem collectChildren_setChild_perm (c : Char) (cs : Str) (i : Nat)
    (ih : ∀ n : TrieNode, n.WF →
      List.Perm ((n.insert cs i).collectIndices) (i :: n.collectIndices)) :
    ∀ ch : List (Char × TrieNode), (∀ p ∈ ch, TrieNode.WF p.2) →
      List.Perm
        (collectChildren
          (setChild ch c (((lookupChild ch c).getD emptyNode).insert cs i)))
        (i :: collectChildren ch) := by
  intro ch
  induction ch with
  | nil =>
    intro _
    have h2 : List.Perm ((emptyNode.insert cs i).collectIndices) [i] :=
      ih emptyNode emptyNode_WF
    simpa [lookupChild, setChild, collectChildren] using h2
  | cons a rest ihl =>
    intro hwf
    obtain ⟨c₀, m⟩ := a
    by_cases h₀ : c₀ = c
    · subst h₀
      have hm : TrieNode.WF m := hwf _ (List.mem_cons_self _ _)
      simp only [lookupChild, if_pos rfl, Option.getD_some, setChild, collectChildren]
      exact (ih m hm).append_right _
    · have hlook : lookupChild ((c₀, m) :: rest) c = lookupChild rest c := by
        simp [lookupChild, h₀]
      have hrest := ihl (fun p hp => hwf p (List.mem_cons_of_mem _ hp))
      simp only [hlook, setChild, if_neg h₀, collectChildren]
      exact ((hrest.append_left m.collectIndices).trans List.perm_middle)

theorem collect_insert_perm : ∀ (w : Str) (n : TrieNode) (i : Nat), n.WF →
    List.Perm ((n.insert w i).collectIndices) (i :: n.collectIndices) := by
  intro w
  induction w with
  | nil =>
    intro n i hwf
    obtain ⟨ch, e, bi⟩ := n
    cases e with
    | true =>
      have h1 : ((TrieNode.mk ch true bi).insert [] i).collectIndices
          = bi ++ i :: collectChildren ch := by
        simp [TrieNode.insert, TrieNode.collectIndices]
      have h2 : (TrieNode.mk ch true bi).collectIndices = bi ++ collectChildren ch := by
        simp [TrieNode.collectIndices]
      rw [h1, h2]
      exact List.perm_middle
    | false =>
      have hbi : bi = [] := (wf_parts hwf).1 rfl
      subst hbi
      simp [TrieNode.insert, TrieNode.collectIndices]
  | cons c cs ih =>
    intro n i hwf
    obtain ⟨ch, e, bi⟩ := n
    simp only [TrieNode.insert, TrieNode.collectIndices]
    have h := collectChildren_setChild_perm c cs i (fun n hw => ih n i hw) ch
      (wf_parts hwf).2
    exact ((h.append_left _).trans List.perm_middle)

theorem search_insert_perm : ∀ (w : Str) (n : TrieNode) (p : Str) (i : Nat), n.WF →
    List.Perm ((n.insert w i).search p)
      (if isPre p w then i :: n.search p else n.search p) := by
  intro w
  induction w with
  | nil =>
    intro n p i hwf
    cases p with
    | nil =>
      simp only [isPre, if_pos rfl, TrieNode.search]
      exact collect_insert_perm [] n i hwf
    | cons c ps =>
      obtain ⟨ch, e, bi⟩ := n
      simp only [TrieNode.insert, TrieNode.search, isPre, Bool.false_eq_true,
        if_false]
      exact List.Perm.refl _
  | cons c' cs ih =>
    intro n p i hwf
    cases p with
    | nil =>
      simp only [isPre, if_pos rfl, TrieNode.search]
      exact collect_insert_perm (c' :: cs) n i hwf
    | cons c ps =>
      obtain ⟨ch, e, bi⟩ := n
      by_cases hc : c = c'
      · subst hc
        cases hl : lookupChild ch c with
        | some m =>
          have hm : m.WF := (wf_parts hwf).2 _ (lookupChild_mem hl)
          have key := ih m ps i hm
          have hset : lookupChild (setChild ch c (m.insert cs i)) c
              = some (m.insert cs i) := lookupChild_setChild_self ch c _
          simp only [TrieNode.insert, TrieNode.search, hl, Option.getD_some, hset,
            isPre, beq_self_eq_true, Bool.true_and]
          exact key
        | none =>
          have key := ih emptyNode ps i emptyNode_WF
          have hset : lookupChild (setChild ch c (emptyNode.insert cs i)) c
              = some (emptyNode.insert cs i) := lookupChild_setChild_self ch c _
          simp only [TrieNode.insert, TrieNode.search, hl, Option.getD_none, hset,
            isPre, beq_self_eq_true, Bool.true_and]
          simpa [emptyNode_search] using key
      · have hne : (c == c') = false := by
          simp [hc]
        have hlook : lookupChild
            (setChild ch c' (((lookupChild ch c').getD emptyNode).insert cs i)) c =
            lookupChild ch c :=
          lookupChild_setChild_ne ch _ hc
        simp only [TrieNode.insert, TrieNode.search, hlook, isPre, hne,
          Bool.false_and, Bool.false_eq_true, if_false]
        exact List.Perm.refl _

/-! ### Counting search results -/

theorem search_insert_count (w : Str) (n : TrieNode) (p : Str) (i j : Nat)
    (hwf : n.WF) :
    ((n.insert w i).search p).count j =
      (n.search p).count j + (if isPre p w = true ∧ j = i then 1 else 0) := by
  have h := (search_insert_perm w n p i hwf).count_eq j
  by_cases hp : isPre p w = true
  · rw [h, if_pos hp, List.count_cons]
    by_cases hj : j = i
    · simp [hp, hj]
    · have hij : ¬ i = j := fun he => hj (Eq.symm he)
      simp [hp, hj, hij]
  · rw [h, if_neg hp]
    simp [hp]

theorem insertList_cons (n : TrieNode) (a : Str × Nat) (rest : List (Str × Nat)) :
    insertList n (a :: rest) = insertList (n.insert a.1 a.2) rest := rfl

theorem insertList_WF (prs : List (Str × Nat)) :
    ∀ n : TrieNode, n.WF → (insertList n prs).WF := by
  induction prs with
  | nil => intro n h; exact h
  | cons a rest ih => intro n h; exact ih _ (insert_WF a.1 n a.2 h)

theorem search_insertList_count (prs : List (Str × Nat)) :
    ∀ (n : TrieNode) (p : Str) (j : Nat), n.WF →
    ((insertList n prs).search p).count j =
      (n.search p).count j + prs.countP (fun pr => isPre p pr.1 && pr.2 == j) := by
  induction prs with
  | nil => intro n p j _; simp [insertList]
  | cons a rest ih =>
    intro n p j hwf
    rw [insertList_cons, ih (n.insert a.1 a.2) p j (insert_WF a.1 n a.2 hwf),
      search_insert_count a.1 n p a.2 j hwf, List.countP_cons]
    by_cases hp : isPre p a.1 = true
    · by_cases hj : j = a.2
      · simp only [hp, hj, and_self, if_pos, beq_self_eq_true, Bool.and_true,
          if_true, true_and]
        omega
      · have hij : ¬ a.2 = j := fun he => hj (Eq.symm he)
        have hne : (a.2 == j) = false := by simp [hij]
        simp [hp, hj, hne]
    · have hb : isPre p a.1 = false := by
        simp only [Bool.not_eq_true] at hp
        exact hp
      simp [hb]

theorem insertList_append (n : TrieNode) (l₁ l₂ : List (Str × Nat)) :
    insertList n (l₁ ++ l₂) = insertList (insertList n l₁) l₂ :=
  List.foldl_append ..

theorem insertRecord_eq (t : TrieNode) (i : Nat) (r : Record) :
    insertRecord t i r = insertList t ((tokens r).map (fun w => (w, i))) := by
  unfold insertRecord insertList
  rw [List.foldl_map]

theorem buildTrie_eq (books : List Record) :
    buildTrie books = insertList emptyNode (pairsOf books) := by
  suffices h : ∀ (l : List (Nat × Record)) (t : TrieNode),
      l.foldl (fun t p => insertRecord t p.1 p.2) t
        = insertList t (l.flatMap (fun p => (tokens p.2).map (fun w => (w, p.1)))) by
    exact h books.enum emptyNode
  intro l
  induction l with
  | nil => intro t; rfl
  | cons a rest ih =>
    intro t
    simp only [List.foldl_cons, List.flatMap_cons]
    rw [insertList_append, ← insertRecord_eq, ih]

theorem countP_pairs_enumFrom (q : Str) (j : Nat) :
    ∀ (books : List Record) (k : Nat),
      ((books.enumFrom k).flatMap
          (fun p => (tokens p.2).map (fun w => (w, p.1)))).countP
          (fun pr => isPre q pr.1 && pr.2 == j)
        = if k ≤ j then
            (match books[j - k]? with
             | some r => (tokens r).countP (fun w => isPre q w)
             | none => 0)
          else 0 := by
  intro books
  induction books with
  | nil =>
    intro k
    simp [List.enumFrom]
  | cons r rest ih =>
    intro k
    have hcons : (r :: rest).enumFrom k = (k, r) :: rest.enumFrom (k + 1) := rfl
    rw [hcons]
    simp only [List.flatMap_cons, List.countP_append, List.countP_map]
    rw [ih (k + 1)]
    have hcomp : ((fun pr : Str × Nat => isPre q pr.1 && pr.2 == j) ∘ (fun w => (w, k)))
        = fun w => isPre q w && (k == j) := by
      funext w
      simp
    rw [hcomp]
    by_cases hkj : k = j
    · subst hkj
      have h1 : ¬ (k + 1 ≤ k) := by omega
      have hz : k - k = 0 := by omega
      rw [if_neg h1, if_pos (le_refl k), hz]
      simp
    · have hb : (k == j) = false := by simp [hkj]
      have hz : ((tokens r).countP (fun w => isPre q w && (k == j))) = 0 := by
        simp [hb]
      rw [hz]
      by_cases hle : k ≤ j
      · have hk1 : k + 1 ≤ j := by omega
        have hidx : j - k = (j - (k + 1)) + 1 := by omega
        rw [if_pos hk1, if_pos hle, hidx, List.getElem?_cons_succ]
        omega
      · have hk1 : ¬ (k + 1 ≤ j) := by omega
        rw [if_neg hk1, if_neg hle]

/-- Master counting lemma: how many times identifier `j` occurs in
`search` on the trie the indexer builds. -/
theorem search_buildTrie_count (books : List Record) (p : Str) (j : Nat) :
    ((buildTrie books).search p).count j
      = match books[j]? with
        | some r => (tokens r).countP (fun w => isPre p w)
        | none => 0 := by
  rw [buildTrie_eq,
    search_insertList_count (pairsOf books) emptyNode p j emptyNode_WF,
    emptyNode_search]
  have h0 := countP_pairs_enumFrom p j books 0
  have henum : books.enum = books.enumFrom 0 := rfl
  unfold pairsOf
  rw [henum]
  simp only [List.count_nil, Nat.zero_add, h0, Nat.le_zero_eq, Nat.sub_zero,
    if_pos (Nat.zero_le j)]

/-- Membership form of the master counting lemma. -/
theorem mem_search_buildTrie (books : List Record) (p : Str) (j : Nat) :
    j ∈ (buildTrie books).search p ↔
      ∃ r, books[j]? = some r ∧ ∃ w ∈ tokens r, isPre p w = true := by
  rw [← List.count_pos_iff, search_buildTrie_count books p j]
  cases hr : books[j]? with
  | none => simp
  | some r =>
    simp only [Option.some.injEq]
    constructor
    · intro hpos
      obtain ⟨w, hw, hp⟩ := List.countP_pos_iff.mp hpos
      exact ⟨r, rfl, w, hw, hp⟩
    · rintro ⟨r', hr', w, hw, hp⟩
      subst hr'
      exact List.countP_pos_iff.mpr ⟨w, hw, hp⟩

/-- Sample records used in the concrete witnesses below. -/
def bookA : Record :=
  ⟨['D','u','n','e'], ['H','e','r','b','e','r','t'], ['S','c','i','F','i'], 4⟩

def bookB : Record :=
  ⟨['D','u','n','e'], ['O','t','h','e','r'], ['S','c','i','F','i'], 4⟩

def bookC : Record :=
  ⟨['E','m','m','a'], ['A','u','s','t','e','n'], ['R','o','m','a','n','c','e'], 5⟩

/-- C1: for every dataset, every record with identifier `j`, every token `w`
of that record's tokenized searchable text, and every prefix `p` of `w`
(including `w` itself), `search p` on the trie the indexer builds includes `j`
in its returned sequence. -/
theorem trie_search_complete (books : List Record) (j : Nat) (r : Record)
    (w p : Str) (hr : books[j]? = some r) (hw : w ∈ tokens r)
    (hp : isPre p w = true) : j ∈ (buildTrie books).search p :=
  (mem_search_buildTrie books p j).mpr ⟨r, hr, w, hw, hp⟩

/-- Witness for C1 at a concrete dataset, token and proper prefix. -/
theorem trie_search_complete_witness :
    0 ∈ (buildTrie [bookA, bookC]).search ['d','u'] :=
  trie_search_complete [bookA, bookC] 0 bookA ['d','u','n','e'] ['d','u']
    (by decide) (by decide) (by decide)

/-- C2: the filtering step equals a list filter over the resolved candidate
sequence (hence order-preserving), and the kept-condition is exactly the
conjunction of the two sentinel-or-equality tests and the rating threshold;
`All` short-circuits its dimension even for a record whose field is literally
`All`. -/
theorem filter_step_spec (books : List Record) (idxs : List Nat)
    (author genre : Str) (min_rating : ℚ) :
    filterStep books idxs author genre min_rating
      = (idxs.filterMap (fun i => books[i]?)).filter
          (passesFilters author genre min_rating)
    ∧ ∀ r : Record, passesFilters author genre min_rating r = true ↔
        ((author = allStr ∨ r.authors = author)
          ∧ (genre = allStr ∨ r.genre = genre)
          ∧ min_rating ≤ r.average_rating) := by
  constructor
  · induction idxs with
    | nil => rfl
    | cons i rest ih =>
      simp only [filterStep, List.filterMap_cons] at *
      cases hr : books[i]? with
      | none => simpa [resolveKeep, hr] using ih
      | some r =>
        by_cases hp : passesFilters author genre min_rating r = true
        · simp [resolveKeep, hr, hp, List.filter_cons, ih]
        · simp [resolveKeep, hr, hp, ih]
  · intro r
    simp [passesFilters, Bool.and_eq_true, Bool.or_eq_true, beq_iff_eq,
      decide_eq_true_eq, and_assoc]

/-- Python `not search_query.strip()` holds exactly for empty/whitespace-only input. -/
theorem stripStr_eq_nil_iff (q : Str) :
    stripStr q = [] ↔ ∀ c ∈ q, c.isWhitespace = true := by
  unfold stripStr
  constructor
  · intro h c hc
    have h1 : (q.dropWhile Char.isWhitespace).reverse.dropWhile Char.isWhitespace
        = [] := by
      simpa [List.reverse_eq_nil_iff] using h
    have h3 : ∀ d ∈ q.dropWhile Char.isWhitespace, d.isWhitespace = true := by
      intro d hd
      exact List.dropWhile_eq_nil_iff.mp h1 d (List.mem_reverse.mpr hd)
    have hsplit := List.takeWhile_append_dropWhile (p := Char.isWhitespace) (l := q)
    rw [← hsplit] at hc
    rcases List.mem_append.mp hc with h' | h'
    · exact List.mem_takeWhile_imp h'
    · exact h3 c h'
  · intro h
    have h1 : q.dropWhile Char.isWhitespace = [] :=
      List.dropWhile_eq_nil_iff.mpr h
    simp [h1]

/-- C4: a whitespace-only (or empty) query bypasses the trie — the candidates
are all identifiers `0..n-1` in dataset order, and the result does not depend
on the trie at all; any other query lowercases the query and takes candidates
from `Trie.search`. -/
theorem empty_query_bypasses_trie (books : List Record) (trie trie' : TrieNode)
    (q author genre : Str) (min_rating : ℚ) :
    ((∀ c ∈ q, c.isWhitespace = true) →
        recommendedIndices books trie q = List.range books.length
      ∧ recommend_books books trie q author genre min_rating
          = recommend_books books trie' q author genre min_rating)
    ∧ (¬ (∀ c ∈ q, c.isWhitespace = true) →
        recommendedIndices books trie q = trie.search (lowerStr q)) := by
  constructor
  · intro h
    have hq : stripStr q = [] := (stripStr_eq_nil_iff q).mpr h
    constructor
    · simp [recommendedIndices, hq]
    · simp [recommend_books, recommendedIndices, hq]
  · intro h
    have hq : ¬ stripStr q = [] := fun he => h ((stripStr_eq_nil_iff q).mp he)
    simp [recommendedIndices, hq]

/-- Witness for C4: a whitespace query yields `range`, a real query consults
the trie. -/
theorem empty_query_bypasses_trie_witness :
    (recommendedIndices [bookA] (buildTrie [bookA]) [' '] = List.range 1
      ∧ recommend_books [bookA] (buildTrie [bookA]) [' '] allStr allStr 1
          = recommend_books [bookA] emptyNode [' '] allStr allStr 1)
    ∧ recommendedIndices [bookA] (buildTrie [bookA]) ['z']
        = (buildTrie [bookA]).search (lowerStr ['z']) :=
  ⟨(empty_query_bypasses_trie [bookA] (buildTrie [bookA]) emptyNode [' ']
      allStr allStr 1).1 (by decide),
   (empty_query_bypasses_trie [bookA] (buildTrie [bookA]) emptyNode ['z']
      allStr allStr 1).2 (by decide)⟩

/-! ### The sort: order and stability -/

theorem sortByRating_sorted (l : List Record) :
    (sortByRating l).Pairwise ratingGe :=
  List.sorted_insertionSort ratingGe l

theorem sortByRating_perm (l : List Record) :
    List.Perm (sortByRating l) l :=
  List.perm_insertionSort ratingGe l

theorem filter_orderedInsert_rating (x : ℚ) (a : Record) (l : List Record) :
    (l.orderedInsert ratingGe a).filter (fun r => decide (r.average_rating = x))
      = if a.average_rating = x
        then a :: l.filter (fun r => decide (r.average_rating = x))
        else l.filter (fun r => decide (r.average_rating = x)) := by
  induction l with
  | nil =>
    by_cases h : a.average_rating = x <;> simp [List.orderedInsert, h]
  | cons b t ih =>
    by_cases hr : ratingGe a b
    · simp only [List.orderedInsert, if_pos hr]
      by_cases h : a.average_rating = x <;> simp [List.filter_cons, h]
    · have hgt : a.average_rating < b.average_rating :=
        not_le.mp (fun hle => hr hle)
      simp only [List.orderedInsert, if_neg hr]
      by_cases h : a.average_rating = x
      · have hbne : b.average_rating ≠ x := by
          rw [← h]
          exact ne_of_gt hgt
        simp [List.filter_cons, h, hbne, ih]
      · by_cases hb : b.average_rating = x <;>
          simp [List.filter_cons, h, hb, ih]

theorem sortByRating_filter_rating (x : ℚ) (l : List Record) :
    (sortByRating l).filter (fun r => decide (r.average_rating = x))
      = l.filter (fun r => decide (r.average_rating = x)) := by
  induction l with
  | nil => rfl
  | cons a t ih =>
    have hstep : sortByRating (a :: t) = (sortByRating t).orderedInsert ratingGe a :=
      rfl
    rw [hstep, filter_orderedInsert_rating]
    by_cases h : a.average_rating = x <;> simp [List.filter_cons, h, ih]

/-- C3: the list `recommend_books` returns is non-increasing in
`average_rating` for adjacent pairs, and the sort is stable: for every rating
value, the records at that rating appear exactly as the filtering step
produced them. -/
theorem recommend_sorted_stable (books : List Record) (trie : TrieNode)
    (q author genre : Str) (min_rating : ℚ) :
    (recommend_books books trie q author genre min_rating).Chain'
        (fun a b => b.average_rating ≤ a.average_rating)
    ∧ ∀ x : ℚ,
        (recommend_books books trie q author genre min_rating).filter
            (fun r => decide (r.average_rating = x))
          = (filterStep books (recommendedIndices books trie q) author genre
              min_rating).filter (fun r => decide (r.average_rating = x)) := by
  constructor
  · exact (sortByRating_sorted _).chain'
  · intro x
    exact sortByRating_filter_rating x _

/-! ### Missing paths -/

theorem search_eq_nil_of_walk_none : ∀ (p : Str) (t : TrieNode),
    t.walk p = none → t.search p = [] := by
  intro p
  induction p with
  | nil =>
    intro t h
    simp [TrieNode.walk] at h
  | cons c ps ih =>
    intro t h
    obtain ⟨ch, e, bi⟩ := t
    cases hl : lookupChild ch c with
    | none => simp [TrieNode.search, hl]
    | some m =>
      simp only [TrieNode.walk, hl] at h
      simp only [TrieNode.search, hl]
      exact ih m h

/-- C6: a prefix whose character-by-character walk fails yields `[]` from
`Trie.search` (and, the functions being total, no error), and a failing walk
on the lowercased query makes `recommend_books` return an empty — but valid —
list. -/
theorem missing_path_yields_empty :
    (∀ (t : TrieNode) (p : Str), t.walk p = none → t.search p = [])
    ∧ (∀ (books : List Record) (t : TrieNode) (q author genre : Str)
        (min_rating : ℚ), ¬ stripStr q = [] → t.walk (lowerStr q) = none →
        recommend_books books t q author genre min_rating = []) := by
  constructor
  · intro t p h
    exact search_eq_nil_of_walk_none p t h
  · intro books t q author genre min_rating hq hw
    have hs : t.search (lowerStr q) = [] := search_eq_nil_of_walk_none _ t hw
    simp [recommend_books, recommendedIndices, hq, hs, filterStep, sortByRating,
      List.insertionSort]

/-- Witness for C6: the query `zz` has no path in a trie containing only
`dune`-style tokens; search and the recommender both come back empty. -/
theorem missing_path_yields_empty_witness :
    (buildTrie [bookA]).search ['z', 'z'] = []
    ∧ recommend_books [bookA] (buildTrie [bookA]) ['z', 'z'] allStr allStr 1
        = [] :=
  ⟨missing_path_yields_empty.1 (buildTrie [bookA]) ['z', 'z'] rfl,
   missing_path_yields_empty.2 [bookA] (buildTrie [bookA]) ['z', 'z'] allStr
     allStr 1 (by decide) rfl⟩

/-- C7: if some required field is missing from the schema, the app signals a
single error before any indexing (its message lists the required columns, so
it names every missing field) and no trie is built; if all four fields are
present, no schema error is raised and indexing proceeds. -/
theorem schema_check (columns : List Str) (books : List Record) :
    ((∀ c ∈ required_columns, c ∈ columns) →
        runApp columns books = .ok (buildTrie books))
    ∧ ((∃ c ∈ required_columns, c ∉ columns) →
        ∃ e, runApp columns books = .error e
          ∧ ∀ c ∈ required_columns, c ∉ columns → c ∈ e) := by
  constructor
  · intro h
    have hall : required_columns.all (fun c => columns.contains c) = true := by
      rw [List.all_eq_true]
      intro c hc
      simpa using h c hc
    unfold runApp
    rw [if_pos hall]
  · rintro ⟨c, hc, hnc⟩
    have hall : ¬ (required_columns.all (fun c => columns.contains c) = true) := by
      rw [List.all_eq_true]
      intro hcon
      exact hnc (by simpa using hcon c hc)
    refine ⟨required_columns, ?_, ?_⟩
    · unfold runApp
      rw [if_neg hall]
    · intro c' hc' _
      exact hc'

/-- Witness for C7: a schema with all four columns indexes fine, one with
`average_rating` missing errors out. -/
theorem schema_check_witness :
    runApp required_columns [] = .ok (buildTrie [])
    ∧ ∃ e, runApp [['t','i','t','l','e']] [] = .error e
        ∧ ∀ c ∈ required_columns, c ∉ [[('t':Char),'i','t','l','e']] → c ∈ e :=
  ⟨(schema_check required_columns []).1 (fun c hc => hc),
   (schema_check [['t','i','t','l','e']] []).2
     ⟨['a','u','t','h','o','r','s'], by decide, by decide⟩⟩

/-! ### Size bounds -/

theorem search_insertList_length (prs : List (Str × Nat)) :
    ∀ (n : TrieNode) (p : Str), n.WF →
      ((insertList n prs).search p).length ≤ (n.search p).length + prs.length := by
  induction prs with
  | nil =>
    intro n p _
    simp [insertList]
  | cons a rest ih =>
    intro n p hwf
    rw [insertList_cons]
    have h1 := ih (n.insert a.1 a.2) p (insert_WF a.1 n a.2 hwf)
    have h2 := (search_insert_perm a.1 n p a.2 hwf).length_eq
    by_cases hp : isPre p a.1 = true
    · rw [if_pos hp] at h2
      simp only [List.length_cons] at h2
      simp only [List.length_cons]
      omega
    · rw [if_neg hp] at h2
      simp only [List.length_cons]
      omega

theorem pairsOf_length (books : List Record) :
    (pairsOf books).length = totalTokens books := by
  unfold pairsOf totalTokens
  rw [List.length_flatMap]
  have h1 : (books.enum.map
        (List.length ∘ fun p => (tokens p.2).map (fun w => (w, p.1))))
      = books.enum.map (fun p => (tokens p.2).length) := by
    simp [Function.comp]
  have h2 : books.enum.map (fun p => (tokens p.2).length)
      = (books.enum.map Prod.snd).map (fun r => (tokens r).length) := by
    rw [List.map_map]
    rfl
  rw [h1, h2, List.enum_map_snd]

/-- C9: every core operation is a total function (all the definitions above
are structurally/well-foundedly recursive, so `insert`, `search`,
`collectIndices` and `recommend_books` terminate on every input), and the
work is bounded by the data: a search on the built trie returns at most one
identifier per inserted token, and a recommendation list is no longer than
the candidate set, itself bounded by dataset size plus total token count. -/
theorem core_operations_bounded (books : List Record) (p q author genre : Str)
    (min_rating : ℚ) :
    ((buildTrie books).search p).length ≤ totalTokens books
    ∧ (recommend_books books (buildTrie books) q author genre
        min_rating).length ≤ books.length + totalTokens books := by
  have hsearch : ∀ p' : Str,
      ((buildTrie books).search p').length ≤ totalTokens books := by
    intro p'
    rw [buildTrie_eq]
    have h := search_insertList_length (pairsOf books) emptyNode p' emptyNode_WF
    rw [emptyNode_search] at h
    simpa [pairsOf_length books] using h
  constructor
  · exact hsearch p
  · have hsort := (sortByRating_perm (filterStep books
      (recommendedIndices books (buildTrie books) q) author genre
      min_rating)).length_eq
    have hfil : (filterStep books (recommendedIndices books (buildTrie books) q)
        author genre min_rating).length
        ≤ (recommendedIndices books (buildTrie books) q).length :=
      List.length_filterMap_le _ _
    have hidx : (recommendedIndices books (buildTrie books) q).length
        ≤ books.length + totalTokens books := by
      unfold recommendedIndices
      by_cases hq : stripStr q = []
      · simp [hq]
      · rw [if_neg hq]
        have := hsearch (lowerStr q)
        omega
    calc (recommend_books books (buildTrie books) q author genre
            min_rating).length
        = (filterStep books (recommendedIndices books (buildTrie books) q)
            author genre min_rating).length := hsort
      _ ≤ (recommendedIndices books (buildTrie books) q).length := hfil
      _ ≤ books.length + totalTokens books := hidx

/-! ### Case sensitivity of the raw trie -/

theorem uint32_le_iff (a b : UInt32) : a ≤ b ↔ a.toNat ≤ b.toNat := by
  rw [UInt32.le_def, BitVec.le_def]
  rfl

theorem toLower_isUpper_eq_false (c : Char) : (Char.toLower c).isUpper = false := by
  have key : ∀ n : Nat, n.isValidChar → (Char.ofNat n).val.toNat = n := by
    intro n h
    unfold Char.ofNat
    rw [dif_pos h]
    unfold Char.ofNatAux
    simp [UInt32.toNat]
  simp only [Char.toLower]
  split
  · rename_i h
    obtain ⟨h1, h2⟩ := h
    have hval : (Char.ofNat (c.toNat + 32)).val.toNat = c.toNat + 32 :=
      key _ (Or.inl (by omega))
    simp only [Char.isUpper, Bool.and_eq_false_iff]
    right
    simp only [decide_eq_false_iff_not]
    rw [uint32_le_iff]
    have e90 : (90 : UInt32).toNat = 90 := rfl
    omega
  · rename_i h
    simp only [Char.toNat] at h
    simp only [Char.isUpper, Bool.and_eq_false_iff]
    by_cases h65 : (65 : UInt32) ≤ c.val
    · right
      simp only [decide_eq_false_iff_not]
      rw [uint32_le_iff] at *
      have e65 : (65 : UInt32).toNat = 65 := rfl
      have e90 : (90 : UInt32).toNat = 90 := rfl
      omega
    · left
      simp [h65]

theorem isPre_chars : ∀ {p w : Str}, isPre p w = true → ∀ c ∈ p, c ∈ w := by
  intro p
  induction p with
  | nil => intro w _ c hc; cases hc
  | cons a ps ih =>
    intro w h c hc
    cases w with
    | nil => cases h
    | cons d ws =>
      simp only [isPre, Bool.and_eq_true, beq_iff_eq] at h
      obtain ⟨had, hpre⟩ := h
      rcases List.mem_cons.mp hc with h' | h'
      · rw [h', had]
        exact List.mem_cons_self _ _
      · exact List.mem_cons_of_mem _ (ih hpre c h')

theorem splitWsAux_chars : ∀ (s acc w : Str), w ∈ splitWsAux s acc →
    ∀ c ∈ w, c ∈ s ∨ c ∈ acc := by
  intro s
  induction s with
  | nil =>
    intro acc w hw c hc
    by_cases h : acc = []
    · simp [splitWsAux, h] at hw
    · simp only [splitWsAux, if_neg h, List.mem_singleton] at hw
      subst hw
      exact Or.inr (List.mem_reverse.mp hc)
  | cons a s ih =>
    intro acc w hw c hc
    by_cases hws : a.isWhitespace = true
    · by_cases h : acc = []
      · simp only [splitWsAux, if_pos hws, if_pos h] at hw
        rcases ih [] w hw c hc with h' | h'
        · exact Or.inl (List.mem_cons_of_mem _ h')
        · cases h'
      · simp only [splitWsAux, if_pos hws, if_neg h, List.mem_cons] at hw
        rcases hw with h' | h'
        · subst h'
          exact Or.inr (List.mem_reverse.mp hc)
        · rcases ih [] w h' c hc with h'' | h''
          · exact Or.inl (List.mem_cons_of_mem _ h'')
          · cases h''
    · have hws' : a.isWhitespace = false := by
        simp only [Bool.not_eq_true] at hws
        exact hws
      simp only [splitWsAux, hws', Bool.false_eq_true, if_false] at hw
      rcases ih (a :: acc) w hw c hc with h' | h'
      · exact Or.inl (List.mem_cons_of_mem _ h')
      · rcases List.mem_cons.mp h' with h'' | h''
        · exact Or.inl (h'' ▸ List.mem_cons_self _ _)
        · exact Or.inr h''

theorem tokens_chars (r : Record) : ∀ w ∈ tokens r, ∀ c ∈ w,
    c.isUpper = false := by
  intro w hw c hc
  have h := splitWsAux_chars (lowerStr (searchableText r)) [] w hw c hc
  rcases h with h | h
  · obtain ⟨d, _, hd⟩ := List.mem_map.mp h
    rw [← hd]
    exact toLower_isUpper_eq_false d
  · cases h

/-- C10: `Trie.search` does no case normalization: on the trie the indexer
builds (all indexed text lowercased), any prefix containing an uppercase
ASCII letter matches no edge path at the offending character, so the result
is empty; case-insensitivity of the public interface exists only because
`recommend_books` lowercases the query first. -/
theorem search_case_sensitive (books : List Record) (p : Str)
    (h : ∃ c ∈ p, c.isUpper = true) : (buildTrie books).search p = [] := by
  rw [List.eq_nil_iff_forall_not_mem]
  intro j hj
  obtain ⟨r, _, w, hw, hp⟩ := (mem_search_buildTrie books p j).mp hj
  obtain ⟨c, hc, hcu⟩ := h
  have hcw : c ∈ w := isPre_chars hp c hc
  have hlow := tokens_chars r w hw c hcw
  rw [hlow] at hcu
  cases hcu

/-- Witness for C10: querying the raw trie with an uppercase `D` finds
nothing although `Dune` was indexed (as `dune`). -/
theorem search_case_sensitive_witness :
    (buildTrie [bookA]).search ['D'] = [] :=
  search_case_sensitive [bookA] ['D'] ⟨'D', by decide, by decide⟩

/-! ### Duplicates are preserved end to end -/

/-- C5: with a non-whitespace query, an identifier occurs in `Trie.search`
exactly once per token occurrence (of its record) extending the queried
prefix; and when the record passes the filters — and no other position holds
an identical record — the record occurs exactly that many times in the final
list. -/
theorem duplicates_preserved (books : List Record) (j : Nat) (r : Record)
    (q author genre : Str) (min_rating : ℚ)
    (hr : books[j]? = some r)
    (huniq : ∀ k r', books[k]? = some r' → r' = r → k = j)
    (hpass : passesFilters author genre min_rating r = true)
    (hq : ¬ stripStr q = []) :
    ((buildTrie books).search (lowerStr q)).count j
        = (tokens r).countP (fun w => isPre (lowerStr q) w)
    ∧ (recommend_books books (buildTrie books) q author genre
        min_rating).count r
        = (tokens r).countP (fun w => isPre (lowerStr q) w) := by
  have hsearch : ((buildTrie books).search (lowerStr q)).count j
      = (tokens r).countP (fun w => isPre (lowerStr q) w) := by
    rw [search_buildTrie_count books (lowerStr q) j, hr]
  refine ⟨hsearch, ?_⟩
  have hperm := sortByRating_perm (filterStep books
    (recommendedIndices books (buildTrie books) q) author genre min_rating)
  unfold recommend_books
  rw [hperm.count_eq]
  unfold filterStep
  rw [List.count_filterMap]
  have hidx : recommendedIndices books (buildTrie books) q
      = (buildTrie books).search (lowerStr q) := by
    unfold recommendedIndices
    rw [if_neg hq]
  have hpoint : ∀ i : Nat,
      (resolveKeep books author genre min_rating i == some r) = (i == j) := by
    intro i
    by_cases hij : i = j
    · subst hij
      simp [resolveKeep, hr, hpass]
    · have hno : resolveKeep books author genre min_rating i ≠ some r := by
        intro hcon
        cases hbi : books[i]? with
        | none =>
          simp only [resolveKeep, hbi] at hcon
          cases hcon
        | some r' =>
          simp only [resolveKeep, hbi] at hcon
          change (if passesFilters author genre min_rating r' = true
            then some r' else none) = some r at hcon
          by_cases hp' : passesFilters author genre min_rating r' = true
          · rw [if_pos hp'] at hcon
            have : r' = r := by
              injection hcon
            exact hij (huniq i r' hbi this)
          · rw [if_neg hp'] at hcon
            cases hcon
      have h1 : (resolveKeep books author genre min_rating i == some r)
          = false := by
        simp [hno]
      have h2 : (i == j) = false := by
        simp [hij]
      rw [h1, h2]
  have hcongr : (recommendedIndices books (buildTrie books) q).countP
      (fun i => resolveKeep books author genre min_rating i == some r)
      = (recommendedIndices books (buildTrie books) q).countP (fun i => i == j) := by
    apply List.countP_congr
    intro i _
    rw [hpoint i]
  rw [hcongr, hidx]
  have hcount : ((buildTrie books).search (lowerStr q)).countP (fun i => i == j)
      = ((buildTrie books).search (lowerStr q)).count j := rfl
  rw [hcount, hsearch]

/-- A record with two tokens sharing the prefix `du`, for the C5 witness. -/
def bookD : Record :=
  ⟨['D','u','n','e',' ','D','u','s','t'], ['H','e','r','b'], ['S','F'], 3⟩

/-- Witness for C5: `Dune Dust` contributes the tokens `dune` and `dust`,
both extending the query `du`, so identifier 0 appears twice in the search
result and the record twice in the final list. -/
theorem duplicates_preserved_witness :
    ((buildTrie [bookD]).search (lowerStr ['d','u'])).count 0
        = (tokens bookD).countP (fun w => isPre (lowerStr ['d','u']) w)
    ∧ (recommend_books [bookD] (buildTrie [bookD]) ['d','u'] allStr allStr
        1).count bookD
        = (tokens bookD).countP (fun w => isPre (lowerStr ['d','u']) w) :=
  duplicates_preserved [bookD] 0 bookD ['d','u'] allStr allStr 1
    (by decide)
    (by
      intro k r' hk _
      cases k with
      | zero => rfl
      | succ n => simp at hk)
    (by decide)
    (by decide)

/-! ### Insertion order: multiset invariance, but not list equality -/

/-- Two distinct records with the same rating sharing the token `t`,
for the C8 counterexample. -/
def bookT0 : Record := ⟨['t'], ['u'], ['v'], 4⟩

def bookT1 : Record := ⟨['t'], ['w'], ['v'], 4⟩

/-- All insertion pairs of `[bookT0, bookT1]` inserted record-by-record in
dataset order. -/
def pairsT01 : List (Str × Nat) :=
  [(['t'], 0), (['u'], 0), (['v'], 0), (['t'], 1), (['w'], 1), (['v'], 1)]

/-- The same multiset of insertion pairs with the two records' batches
swapped. -/
def pairsT10 : List (Str × Nat) :=
  [(['t'], 1), (['w'], 1), (['v'], 1), (['t'], 0), (['u'], 0), (['v'], 0)]

/-- Counterexample to C8: the two insertion sequences hold the same multiset
of (token, recordId) pairs, yet with query `t` the two equal-rated matching
records come back in different orders, so the final lists differ. -/
theorem insertion_order_counterexample :
    List.Perm pairsT01 pairsT10
    ∧ recommend_books [bookT0, bookT1] (insertList emptyNode pairsT01) ['t']
        allStr allStr 1
      ≠ recommend_books [bookT0, bookT1] (insertList emptyNode pairsT10) ['t']
        allStr allStr 1 := by
  constructor
  · decide
  · decide

instance : IsAntisymm ℚ (fun a b : ℚ => b ≤ a) :=
  ⟨fun _ _ h1 h2 => le_antisymm h2 h1⟩

/-- C8 (amended): for any two insertion sequences of the same multiset of
(token, recordId) pairs, the final lists of `recommend_books` are
permutations of each other with identical rating sequences, for every
combination of query and filters; the relative order of distinct equal-rated
records may differ. -/
theorem insertion_order_invariance (books : List Record)
    (prs1 prs2 : List (Str × Nat)) (q author genre : Str) (min_rating : ℚ)
    (hperm : List.Perm prs1 prs2) :
    List.Perm
      (recommend_books books (insertList emptyNode prs1) q author genre
        min_rating)
      (recommend_books books (insertList emptyNode prs2) q author genre
        min_rating)
    ∧ (recommend_books books (insertList emptyNode prs1) q author genre
        min_rating).map (fun r => r.average_rating)
      = (recommend_books books (insertList emptyNode prs2) q author genre
          min_rating).map (fun r => r.average_rating) := by
  have hsearch : ∀ p : Str,
      List.Perm ((insertList emptyNode prs1).search p)
        ((insertList emptyNode prs2).search p) := by
    intro p
    rw [List.perm_iff_count]
    intro j
    rw [search_insertList_count prs1 emptyNode p j emptyNode_WF,
      search_insertList_count prs2 emptyNode p j emptyNode_WF,
      hperm.countP_eq]
  have hidx : List.Perm
      (recommendedIndices books (insertList emptyNode prs1) q)
      (recommendedIndices books (insertList emptyNode prs2) q) := by
    unfold recommendedIndices
    by_cases hq : stripStr q = []
    · simp only [if_pos hq]
      exact List.Perm.refl _
    · simp only [if_neg hq]
      exact hsearch (lowerStr q)
  have hfil : List.Perm
      (filterStep books (recommendedIndices books (insertList emptyNode prs1) q)
        author genre min_rating)
      (filterStep books (recommendedIndices books (insertList emptyNode prs2) q)
        author genre min_rating) :=
    hidx.filterMap _
  have hres : List.Perm
      (recommend_books books (insertList emptyNode prs1) q author genre
        min_rating)
      (recommend_books books (insertList emptyNode prs2) q author genre
        min_rating) := by
    unfold recommend_books
    exact (sortByRating_perm _).trans (hfil.trans (sortByRating_perm _).symm)
  refine ⟨hres, ?_⟩
  have hs1 : ((recommend_books books (insertList emptyNode prs1) q author genre
      min_rating).map (fun r => r.average_rating)).Pairwise
      (fun a b : ℚ => b ≤ a) := by
    refine List.Pairwise.map _ ?_ (sortByRating_sorted _)
    intro a b hab
    exact hab
  have hs2 : ((recommend_books books (insertList emptyNode prs2) q author genre
      min_rating).map (fun r => r.average_rating)).Pairwise
      (fun a b : ℚ => b ≤ a) := by
    refine List.Pairwise.map _ ?_ (sortByRating_sorted _)
    intro a b hab
    exact hab
  exact List.eq_of_perm_of_sorted (hres.map _) hs1 hs2

/-- Witness for the amended C8 at a concrete permuted pair of insertion
sequences. -/
theorem insertion_order_invariance_witness :
    List.Perm
      (recommend_books [bookT0, bookT1] (insertList emptyNode pairsT01) ['t']
        allStr allStr 1)
      (recommend_books [bookT0, bookT1] (insertList emptyNode pairsT10) ['t']
        allStr allStr 1)
    ∧ (recommend_books [bookT0, bookT1] (insertList emptyNode pairsT01) ['t']
        allStr allStr 1).map (fun r => r.average_rating)
      = (recommend_books [bookT0, bookT1] (insertList emptyNode pairsT10) ['t']
          allStr allStr 1).map (fun r => r.average_rating) :=
  insertion_order_invariance [bookT0, bookT1] pairsT01 pairsT10 ['t'] allStr
    allStr 1 (by decide)
